import Mathlib

/-!
Verification development for the `genemunge` normalization module
(`genemunge/normalize.py`).

The Python source operates on pandas DataFrames and numpy arrays of IEEE
doubles.  The shallow embedding below models numeric values exactly:
most functions are translated over `ℚ` (or `ℝ` where `log`/`exp` are
involved), with division by zero as Lean's junk value where the float
code would produce NaN (noted at each use).  External numeric routines
(`numpy.linalg.svd`, `numpy.linalg.inv`) are modeled as oracle function
parameters; the logic the source builds around them is translated
literally.  `impute` is modeled over an explicit NaN-carrying value type
because pandas NaN propagation is essential to its behavior.
-/

open BigOperators

/-- `do_nothing(data)` from the source: the identity imputer. -/
def do_nothing (data : α) : α := data

/-! ## Value type with NaN, for `impute`

`impute` relies on pandas/IEEE NaN behavior: `data[data > 0].min(axis=1)`
is NaN for a row with no positive entry, and NaN propagates through
`+` and `*` (including `0 * NaN = NaN`).  `FVal` models an IEEE double
as either NaN or an exact rational. -/

inductive FVal : Type where
  | nan : FVal
  | val : ℚ → FVal
deriving DecidableEq, Repr

/-- IEEE addition on `FVal`: NaN propagates. -/
def FVal.add : FVal → FVal → FVal
  | FVal.val a, FVal.val b => FVal.val (a + b)
  | _, _ => FVal.nan

/-- IEEE multiplication on `FVal`: NaN propagates (in particular `0 * NaN = NaN`). -/
def FVal.mul : FVal → FVal → FVal
  | FVal.val a, FVal.val b => FVal.val (a * b)
  | _, _ => FVal.nan

/-- The positive entries of a row, as exact rationals (`data[data > 0]`
keeps positives and turns everything else into NaN; a NaN entry is not
`> 0`). -/
def positives (row : List FVal) : List ℚ :=
  row.filterMap (fun x => match x with
    | FVal.val q => if 0 < q then some q else none
    | FVal.nan => none)

/-- `data[data > 0].min(axis=1)` for one row: the minimum of the positive
entries, skipping NaN (pandas `skipna=True`); NaN when there is none. -/
def minPos : List FVal → Option ℚ := fun row =>
  match positives row with
  | [] => none
  | x :: xs => some (xs.foldl min x)

/-- One row of `impute`: `v = scale * data[data > 0].min(axis=1)`,
`data_fill = data.fillna(0)`, result `data_fill + (data_fill == 0) * v`.
The boolean mask multiplies as 0/1 floats, so `0 * NaN = NaN` makes the
whole row NaN when `v` is NaN. -/
def imputeRow (scale : ℚ) (row : List FVal) : List FVal :=
  let v : FVal := match minPos row with
    | none => FVal.nan
    | some q => FVal.val (scale * q)
  let data_fill := row.map (fun x => match x with
    | FVal.nan => FVal.val 0
    | y => y)
  data_fill.map (fun x =>
    FVal.add x (FVal.mul (if x = FVal.val 0 then FVal.val 1 else FVal.val 0) v))

/-- `impute(data, scale)` from the source, row by row. -/
def impute (data : List (List FVal)) (scale : ℚ) : List (List FVal) :=
  data.map (imputeRow scale)

/-! ## List matrices

Helpers modeling numpy 2-d arrays as lists of rows. -/

/-- A numpy 2-d array of doubles, modeled as a list of rows of exact rationals. -/
def MatQ : Type := List (List ℚ)

/-- Dot product of two rows (`numpy.dot` on vectors). -/
def dotL (x y : List ℚ) : ℚ := (List.zipWith (· * ·) x y).sum

/-- Transpose of a rectangular list matrix (`.T`). -/
def transposeL (A : MatQ) : MatQ :=
  (List.range (A.headD []).length).map (fun j => A.map (fun r => r.getD j 0))

/-- Matrix product of list matrices (`numpy.dot`). -/
def matMulL (A B : MatQ) : MatQ :=
  let Bt := transposeL B
  A.map (fun r => Bt.map (fun c => dotL r c))

/-- `numpy.eye(n)`. -/
def eyeL (n : ℕ) : MatQ :=
  (List.range n).map (fun i => (List.range n).map (fun j => if i = j then (1 : ℚ) else 0))

/-- Elementwise sum of two list matrices. -/
def addL (A B : MatQ) : MatQ := List.zipWith (List.zipWith (· + ·)) A B

/-- Scalar times a list matrix. -/
def scaleL (c : ℚ) (A : MatQ) : MatQ := A.map (fun r => r.map (fun x => c * x))

/-! ## Truncated SVD with variance cutoff (`RemoveUnwantedVariation._cutoff_svd`)

`numpy.linalg.svd` itself is an external LAPACK routine; its output
triple `(U, L, Vt)` is taken as the argument of `cutoff_svd`, which
translates the rank-selection logic that follows the `svd` call. -/

/-- numpy's default absolute tolerance in `numpy.isclose(L, 0)`:
`|x| <= atol + rtol * |0| = atol = 1e-8`. -/
def atol : ℚ := 1 / 10 ^ 8

/-- `(~numpy.isclose(L, 0)).sum()`: how many singular values are not
numerically close to zero. -/
def numNonzero (L : List ℚ) : ℕ :=
  L.countP (fun x => decide (atol < |x|))

/-- `L = L[:(~numpy.isclose(L, 0)).sum()]`: the code drops that many
entries from the end, exploiting that SVD returns `L` sorted descending. -/
def trimmedL (L : List ℚ) : List ℚ := L.take (numNonzero L)

/-- `numpy.cumsum(L**2) / numpy.sum(L**2)` over the trimmed singular
values: entry `j` is the fractional variance of the first `j+1` factors.
(An all-trimmed list yields `[]`; a zero total is Lean's `x / 0 = 0`
junk where numpy would produce NaN.) -/
def cumulFracs (L : List ℚ) : List ℚ :=
  let sq := (trimmedL L).map (fun x => x ^ 2)
  (List.range sq.length).map (fun j => (sq.take (j + 1)).sum / sq.sum)

/-- `RemoveUnwantedVariation._cutoff_svd` after the `numpy.linalg.svd`
call: trim near-zero singular values, pick
`L_cutoff = min(max_components, 1 + searchsorted(cumul_variance_fracs, variance_cutoff))`
and slice.  `numpy.searchsorted(a, v)` (side `left`) on the sorted
cumulative-variance array equals the number of entries strictly below
`v`, which is how it is rendered here. -/
def cutoff_svd (svdResult : MatQ × List ℚ × MatQ) (variance_cutoff : ℚ)
    (num_components : Option ℕ) : MatQ × List ℚ × MatQ :=
  let U := svdResult.1
  let L := trimmedL svdResult.2.1
  let cumul := cumulFracs svdResult.2.1
  let max_components := num_components.getD L.length
  let L_cutoff := min max_components (1 + cumul.countP (fun c => decide (c < variance_cutoff)))
  (U.map (List.take L_cutoff), L.take L_cutoff, svdResult.2.2.take L_cutoff)

/-- The first index at which the cumulative fractional variance reaches
or exceeds `cutoff` (the spec's "first-crossing, inclusive"). -/
def firstCross (L : List ℚ) (cutoff : ℚ) : ℕ :=
  (cumulFracs L).findIdx (fun c => decide (cutoff ≤ c))

/-- The rank as the spec words it: one plus the first crossing index,
capped above by `num_components` (when given) and by the count of
singular values not numerically close to zero. -/
def specRank (L : List ℚ) (cutoff : ℚ) (nc : Option ℕ) : ℕ :=
  min (nc.getD (numNonzero L)) (min (numNonzero L) (1 + firstCross L cutoff))

/-! ## The RUV-2 model object (`RemoveUnwantedVariation`)

The five fitted attributes are `None` until `fit` assigns them, which is
modeled with `Option` fields.  DataFrames carrying named gene columns
are modeled as a column list plus rows given as functions from gene name
to value (`PFrame`). -/

/-- A pandas DataFrame with named gene columns: the ordered column list
and one function per sample row. -/
structure PFrame where
  cols : List String
  rows : List (String → ℚ)

/-- The `RemoveUnwantedVariation` object: the `center` flag plus the five
fitted attributes, `None` (here `none`) while unfit. -/
structure RemoveUnwantedVariation where
  center : Bool
  hk_genes : Option (List String)
  means : Option (String → ℚ)
  U : Option MatQ
  L : Option (List ℚ)
  Vt : Option MatQ

/-- `RemoveUnwantedVariation.__init__`: stores `center` and sets all five
fitted attributes to `None`, ignoring the other constructor arguments. -/
def RemoveUnwantedVariation.init (center : Bool) (hk_genes : Option (List String))
    (means : Option (String → ℚ)) (U : Option MatQ) (L : Option (List ℚ))
    (Vt : Option MatQ) : RemoveUnwantedVariation :=
  { center := center, hk_genes := none, means := none, U := none, L := none, Vt := none }

/-- `RemoveUnwantedVariation._is_fit`: all five fitted attributes are set. -/
def RemoveUnwantedVariation.is_fit (model : RemoveUnwantedVariation) : Bool :=
  model.hk_genes.isSome && model.means.isSome && model.U.isSome
    && model.L.isSome && model.Vt.isSome

/-- The invariant from the spec: the five fitted fields are all unset or
all set together. -/
def RemoveUnwantedVariation.allOrNone (model : RemoveUnwantedVariation) : Prop :=
  (model.hk_genes = none ∧ model.means = none ∧ model.U = none
      ∧ model.L = none ∧ model.Vt = none)
    ∨ (model.hk_genes.isSome = true ∧ model.means.isSome = true ∧ model.U.isSome = true
      ∧ model.L.isSome = true ∧ model.Vt.isSome = true)

/-- `self.means = data.mean(axis=0)`: the per-gene training means (the
first statement of `fit`). -/
def fitMeans (data : PFrame) : String → ℚ :=
  fun g => (data.rows.map (fun r => r g)).sum / (data.rows.length : ℚ)

/-- `self.hk_genes = [gene for gene in hk_genes if gene in data.columns]`:
the housekeeping genes restricted to the data's columns (the second
statement of `fit`). -/
def fitHkGenes (data : PFrame) (hk_genes : List String) : List String :=
  hk_genes.filter (fun g => decide (g ∈ data.cols))

/-- The housekeeping submatrix `fit` passes to `_cutoff_svd`: the
housekeeping columns, centered by the just-stored training means when
`center` is set, else raw. -/
def fitHousekeeping (center : Bool) (data : PFrame) (hk_genes : List String) : MatQ :=
  if center then
    data.rows.map (fun r => (fitHkGenes data hk_genes).map (fun g => r g - fitMeans data g))
  else data.rows.map (fun r => (fitHkGenes data hk_genes).map r)

/-- `RemoveUnwantedVariation.fit`: store the per-gene training means, then
the intersected housekeeping list, form the (optionally centered)
housekeeping submatrix and SVD it, truncate, and unpack `U, L, Vt`.
`numpy.linalg.svd` is the fallible external routine `svdO` — it raises
`LinAlgError` when the iteration does not converge, e.g. on
NaN-carrying input.  The source assigns `self.means` and `self.hk_genes`
*before* that call and unpacks `self.U, self.L, self.Vt` from its result
*after* it, so when the call raises, the exception propagates with the
first two attributes already overwritten and the last three untouched.
The returned pair is (exception outcome, object state after the call). -/
def RemoveUnwantedVariation.fit (svdO : MatQ → Except String (MatQ × List ℚ × MatQ))
    (model : RemoveUnwantedVariation) (data : PFrame) (hk_genes : List String)
    (variance_cutoff : ℚ) (num_components : Option ℕ) :
    Except String Unit × RemoveUnwantedVariation :=
  match svdO (fitHousekeeping model.center data hk_genes) with
  | Except.error e =>
    (Except.error e,
      { model with hk_genes := some (fitHkGenes data hk_genes),
                   means := some (fitMeans data) })
  | Except.ok svdResult =>
    let svd := cutoff_svd svdResult variance_cutoff num_components
    (Except.ok Unit.unit,
      { model with hk_genes := some (fitHkGenes data hk_genes),
                   means := some (fitMeans data),
                   U := some svd.1, L := some svd.2.1, Vt := some svd.2.2 })

/-- `RemoveUnwantedVariation._delta` (python name `_delta`):
`J = inv(penalty * eye(k) + W.T @ W)` and `W @ (J @ (W.T @ data_centered))`,
with `numpy.linalg.inv` as the oracle `invO`. -/
def RemoveUnwantedVariation.delta (invO : MatQ → MatQ) (W : MatQ)
    (data_centered : MatQ) (penalty : ℚ) : MatQ :=
  let k := (W.headD []).length
  let penalty_term := scaleL penalty (eyeL k)
  let J := invO (addL penalty_term (matMulL (transposeL W) W))
  matMulL W (matMulL J (matMulL (transposeL W) data_centered))

/-- `RemoveUnwantedVariation.transform`: assert the model is fit (the five
attributes are not `None`), center by the stored means when `center` is
set, project the housekeeping columns onto the stored `Vt`, and subtract
the ridge-regression correction. -/
def RemoveUnwantedVariation.transform (invO : MatQ → MatQ)
    (model : RemoveUnwantedVariation) (data : PFrame) (penalty : ℚ) :
    Except String PFrame :=
  match model.hk_genes, model.means, model.U, model.L, model.Vt with
  | some hkg, some means, some _, some _, some Vt =>
    let data_trans : List (String → ℚ) :=
      if model.center then data.rows.map (fun r => fun g => r g - means g) else data.rows
    let W : MatQ := matMulL (data_trans.map (fun r => hkg.map r)) (transposeL Vt)
    let dataC : MatQ := data_trans.map (fun r => data.cols.map r)
    let delta := RemoveUnwantedVariation.delta invO W dataC penalty
    Except.ok { cols := data.cols,
                rows := List.zipWith
                  (fun r d => fun g => r g - d.getD (data.cols.indexOf g) 0)
                  data.rows delta }
  | _, _, _, _, _ => Except.error "RUV has not been fit!"

/-- `RemoveUnwantedVariation.save`: refuse to overwrite an existing file
unless permitted (`assert overwrite_existing or not path.exists()`), else
pickle the complete object.  The filesystem is modeled as a map from
path to stored object; the assert fires before any write, so on refusal
the filesystem is returned untouched. -/
def RemoveUnwantedVariation.save (fs : String → Option RemoveUnwantedVariation)
    (model : RemoveUnwantedVariation) (filename : String)
    (overwrite_existing : Bool) :
    Except String Unit × (String → Option RemoveUnwantedVariation) :=
  if overwrite_existing || (fs filename).isNone then
    (Except.ok Unit.unit, fun f => if f = filename then some model else fs f)
  else
    (Except.error "Must allow overwriting existing files", fs)

/-! ## `transform` on a fit model, in matrix form (for the algebraic claim)

For the functional-correctness claim about `transform`'s formula the
fitted state is given directly: `means` aligned with the new data's `n`
gene columns, the positions `hkIdx` of the stored housekeeping genes
among those columns, and the stored `Vt`.  `numpy.linalg.inv` is the
oracle `invO`. -/

namespace RUVMat

/-- `_delta` over Mathlib matrices:
`W @ (inv(penalty * eye(k) + W.T @ W) @ (W.T @ data_centered))`. -/
def delta {m n K : ℕ} (invO : Matrix (Fin K) (Fin K) ℚ → Matrix (Fin K) (Fin K) ℚ)
    (W : Matrix (Fin m) (Fin K) ℚ) (data_centered : Matrix (Fin m) (Fin n) ℚ)
    (penalty : ℚ) : Matrix (Fin m) (Fin n) ℚ :=
  let penalty_term := penalty • (1 : Matrix (Fin K) (Fin K) ℚ)
  let J := invO (penalty_term + W.transpose * W)
  W * (J * (W.transpose * data_centered))

/-- `transform` of a fit model, literally following the source statements:
center (or not), `W = data_trans[hk_genes] @ Vt.T`, return
`data - _delta(W, data_trans, penalty)`. -/
def transform {m n c K : ℕ} (center : Bool) (means : Fin n → ℚ)
    (hkIdx : Fin c → Fin n) (Vt : Matrix (Fin K) (Fin c) ℚ)
    (invO : Matrix (Fin K) (Fin K) ℚ → Matrix (Fin K) (Fin K) ℚ)
    (data : Matrix (Fin m) (Fin n) ℚ) (penalty : ℚ) : Matrix (Fin m) (Fin n) ℚ :=
  let data_trans := if center then data - Matrix.of (fun _ j => means j) else data
  let W := data_trans.submatrix id hkIdx * Vt.transpose
  data - delta invO W data_trans penalty

/-- The same operation as the spec words it: `W = data_centered[hk_genes] · Vtᵀ`,
`J = (WᵀW + penalty·I)⁻¹`, `coefficients = J · Wᵀ · data_centered` over the
full gene set, result `data − W · coefficients`. -/
def transformSpec {m n c K : ℕ} (center : Bool) (means : Fin n → ℚ)
    (hkIdx : Fin c → Fin n) (Vt : Matrix (Fin K) (Fin c) ℚ)
    (invO : Matrix (Fin K) (Fin K) ℚ → Matrix (Fin K) (Fin K) ℚ)
    (data : Matrix (Fin m) (Fin n) ℚ) (penalty : ℚ) : Matrix (Fin m) (Fin n) ℚ :=
  let data_centered := if center then data - Matrix.of (fun _ j => means j) else data
  let W := data_centered.submatrix id hkIdx * Vt.transpose
  let J := invO (W.transpose * W + penalty • (1 : Matrix (Fin K) (Fin K) ℚ))
  let coefficients := J * W.transpose * data_centered
  data - W * coefficients

end RUVMat

/-! ## Normalizer unit conversions over exact rationals

`reindex` aligns the data to the reference gene universe (an external
table); the conversions below receive the reindexed matrix and translate
what follows.  `do_nothing` is the default imputer. -/

namespace NormQ

/-- `tpm_from_rpkm` after reindexing: apply the imputer, then
`10**6 * subset.divide(subset.sum(axis=1), axis='index')`.
(A zero row sum is Lean's `x / 0 = 0` junk where numpy yields NaN.) -/
def tpm_from_rpkm {m n : ℕ} (data : Matrix (Fin m) (Fin n) ℚ)
    (imputer : Matrix (Fin m) (Fin n) ℚ → Matrix (Fin m) (Fin n) ℚ) :
    Matrix (Fin m) (Fin n) ℚ :=
  let subset := imputer data
  Matrix.of fun i j => 10 ^ 6 * subset i j / ∑ k, subset i k

/-- `tpm_from_counts` after reindexing: impute, divide each gene column by
its reference length, then the same row rescale to 1,000,000. -/
def tpm_from_counts {m n : ℕ} (data : Matrix (Fin m) (Fin n) ℚ)
    (gene_lengths : Fin n → ℚ)
    (imputer : Matrix (Fin m) (Fin n) ℚ → Matrix (Fin m) (Fin n) ℚ) :
    Matrix (Fin m) (Fin n) ℚ :=
  let subset := imputer data
  let normed := Matrix.of fun i j => subset i j / gene_lengths j
  Matrix.of fun i j => 10 ^ 6 * normed i j / ∑ k, normed i k

end NormQ

/-! ## `ordinalize`

`data.apply(partial(numpy.searchsorted, cutoffs)).astype(data.dtypes) + min_value`.
`numpy.searchsorted(cutoffs, v)` (side `left`) on the sorted cutoff list
is the number of cutoffs strictly below `v`.  The `astype` keeps the input
dtype, modeled as a dtype tag on the frame; the integer bin values are
unchanged by the cast. -/

/-- A DataFrame of plain numbers with its dtype tag. -/
structure QFrame where
  dtype : String
  vals : List (List ℚ)
deriving DecidableEq, Repr

/-- `Normalizer.ordinalize` from the source. -/
def ordinalize (data : QFrame) (cutoffs : List ℚ) (min_value : ℚ) : QFrame :=
  { dtype := data.dtype,
    vals := data.vals.map (fun row => row.map (fun v =>
      (cutoffs.countP (fun c => decide (c < v)) : ℚ) + min_value)) }

/-- The variant the claim describes: right-exclusive boundaries, i.e.
value `v` lands in the bin counting the cutoffs `≤ v`. -/
def ordinalizeRightExclusive (data : QFrame) (cutoffs : List ℚ) (min_value : ℚ) : QFrame :=
  { dtype := data.dtype,
    vals := data.vals.map (fun row => row.map (fun v =>
      (cutoffs.countP (fun c => decide (c ≤ v)) : ℚ) + min_value)) }

/-! ## `deduplicate`

`data.groupby(data.columns, axis=1).sum()`: group the columns by name
(pandas sorts the group keys), sum within each group.  Positional columns
are needed to represent duplicated names, hence the list-of-rows frame. -/

/-- A pandas DataFrame with positional, possibly duplicated, column names. -/
structure LFrame where
  cols : List String
  rows : List (List ℚ)
deriving DecidableEq, Repr

/-- `deduplicate(data)` from the source. -/
def deduplicate (data : LFrame) : LFrame :=
  let keys := (List.insertionSort (· ≤ ·) data.cols).dedup
  { cols := keys,
    rows := data.rows.map (fun r => keys.map (fun k =>
      (((data.cols.zip r).filter (fun p => decide (p.1 = k))).map Prod.snd).sum)) }

/-- The sum of the entries of row `r` in the columns named `k` (the
"elementwise sum of every input column bearing that identifier"). -/
def sumMatching (k : String) : List String → List ℚ → ℚ
  | c :: cs, x :: xs => (if c = k then x else 0) + sumMatching k cs xs
  | _, _ => 0

/-! ## Normalizer log-ratio conversions over the reals

`clr_from_tpm` takes logarithms, so this part of the embedding lives in
`ℝ` with `Real.log` / `Real.exp` standing for the float `numpy.log` /
`numpy.exp`.  As above the matrices are the reindexed ones and the mean
along a row divides by the number of gene columns. -/

namespace NormR

/-- `tpm_from_rpkm` over the reals (see `NormQ.tpm_from_rpkm`). -/
noncomputable def tpm_from_rpkm {m n : ℕ} (data : Matrix (Fin m) (Fin n) ℝ)
    (imputer : Matrix (Fin m) (Fin n) ℝ → Matrix (Fin m) (Fin n) ℝ) :
    Matrix (Fin m) (Fin n) ℝ :=
  let subset := imputer data
  Matrix.of fun i j => 10 ^ 6 * subset i j / ∑ k, subset i k

/-- `tpm_from_subset` is an alias of `tpm_from_rpkm` in the source. -/
noncomputable def tpm_from_subset {m n : ℕ} (data : Matrix (Fin m) (Fin n) ℝ)
    (imputer : Matrix (Fin m) (Fin n) ℝ → Matrix (Fin m) (Fin n) ℝ) :
    Matrix (Fin m) (Fin n) ℝ :=
  tpm_from_rpkm data imputer

/-- `clr_from_tpm`: TPM-normalize, `numpy.log`, subtract each row's mean
log value (`log_transformed.subtract(log_transformed.mean(axis=1), axis=0)`). -/
noncomputable def clr_from_tpm {m n : ℕ} (data : Matrix (Fin m) (Fin n) ℝ)
    (imputer : Matrix (Fin m) (Fin n) ℝ → Matrix (Fin m) (Fin n) ℝ) :
    Matrix (Fin m) (Fin n) ℝ :=
  let imputed := tpm_from_subset data imputer
  let log_transformed := Matrix.of fun i j => Real.log (imputed i j)
  Matrix.of fun i j => log_transformed i j - (∑ k, log_transformed i k) / (n : ℝ)

/-- `tpm_from_clr`: `tpm_from_rpkm(numpy.exp(data))` with the default
(identity) imputer. -/
noncomputable def tpm_from_clr {m n : ℕ} (data : Matrix (Fin m) (Fin n) ℝ) :
    Matrix (Fin m) (Fin n) ℝ :=
  tpm_from_rpkm (Matrix.of fun i j => Real.exp (data i j)) do_nothing

end NormR

/-! ## Helper lemmas -/

theorem FVal.add_nan (x : FVal) : FVal.add x FVal.nan = FVal.nan := by
  cases x <;> rfl

theorem FVal.mul_nan (x : FVal) : FVal.mul x FVal.nan = FVal.nan := by
  cases x <;> rfl

theorem minPos_eq_none_iff (row : List FVal) :
    minPos row = none ↔ ∀ q : ℚ, FVal.val q ∈ row → ¬ 0 < q := by
  have hpp : positives row = [] ↔ ∀ q : ℚ, FVal.val q ∈ row → ¬ 0 < q := by
    unfold positives
    rw [List.filterMap_eq_nil_iff]
    constructor
    · intro h q hq hpos
      have := h (FVal.val q) hq
      simp [hpos] at this
    · intro h a ha
      cases a with
      | nan => rfl
      | val q =>
        have := h q ha
        simp [this]
  rw [← hpp]
  unfold minPos
  cases positives row <;> simp

theorem sumMatching_eq (k : String) :
    ∀ (cols : List String) (r : List ℚ),
      (((cols.zip r).filter (fun p => decide (p.1 = k))).map Prod.snd).sum
        = sumMatching k cols r := by
  intro cols
  induction cols with
  | nil => intro r; simp [sumMatching]
  | cons c cs ih =>
    intro r
    cases r with
    | nil => simp [sumMatching]
    | cons x xs =>
      by_cases h : c = k <;>
        simp [sumMatching, h, List.filter_cons, ih xs]

theorem countP_lt_eq_findIdx_le (v : ℚ) :
    ∀ (l : List ℚ), l.Pairwise (· ≤ ·) →
      l.countP (fun c => decide (c < v)) = l.findIdx (fun c => decide (v ≤ c)) := by
  intro l
  induction l with
  | nil => intro _; rfl
  | cons x xs ih =>
    intro hp
    rcases List.pairwise_cons.mp hp with ⟨hx, hxs⟩
    by_cases hvx : v ≤ x
    · have hcount : (x :: xs).countP (fun c => decide (c < v)) = 0 := by
        rw [List.countP_eq_zero]
        intro b hb
        rcases List.mem_cons.mp hb with rfl | hb
        · simp [not_lt.mpr hvx]
        · simp [not_lt.mpr (hvx.trans (hx b hb))]
      rw [hcount, List.findIdx_cons]
      simp [hvx]
    · have hxv : x < v := not_le.mp hvx
      rw [List.countP_cons, List.findIdx_cons, ih hxs]
      simp [hxv, hvx]

theorem countP_bracket (v : ℚ) :
    ∀ (l : List ℚ), l.Pairwise (· ≤ ·) →
      (∀ x ∈ l.take (l.countP (fun c => decide (c < v))), x < v)
        ∧ (∀ x ∈ l.drop (l.countP (fun c => decide (c < v))), v ≤ x) := by
  intro l
  induction l with
  | nil => intro _; constructor <;> intro x hx <;> simp at hx
  | cons c cs ih =>
    intro hp
    rcases List.pairwise_cons.mp hp with ⟨hc, hcs⟩
    by_cases hcv : c < v
    · have hcnt : (c :: cs).countP (fun b => decide (b < v))
          = cs.countP (fun b => decide (b < v)) + 1 := by
        rw [List.countP_cons]
        simp [hcv]
      rw [hcnt]
      rcases ih hcs with ⟨iht, ihd⟩
      constructor
      · intro x hx
        rw [List.take_succ_cons] at hx
        rcases List.mem_cons.mp hx with rfl | hx
        · exact hcv
        · exact iht x hx
      · intro x hx
        rw [List.drop_succ_cons] at hx
        exact ihd x hx
    · have hvc : v ≤ c := not_lt.mp hcv
      have hall : (c :: cs).countP (fun b => decide (b < v)) = 0 := by
        rw [List.countP_eq_zero]
        intro b hb
        rcases List.mem_cons.mp hb with rfl | hb
        · simp [hcv]
        · simp [not_lt.mpr (hvc.trans (hc b hb))]
      rw [hall]
      constructor
      · intro x hx; simp at hx
      · intro x hx
        rw [List.drop_zero] at hx
        rcases List.mem_cons.mp hx with rfl | hx
        · exact hvc
        · exact hvc.trans (hc x hx)

theorem trimmed_eq_takeWhile :
    ∀ (l : List ℚ), l.Pairwise (· ≥ ·) → (∀ x ∈ l, 0 ≤ x) →
      l.take (l.countP (fun x => decide (atol < |x|)))
        = l.takeWhile (fun x => decide (atol < |x|)) := by
  intro l
  induction l with
  | nil => intro _ _; rfl
  | cons x xs ih =>
    intro hp hnn
    rcases List.pairwise_cons.mp hp with ⟨hx, hxs⟩
    by_cases hax : atol < |x|
    · have hcnt : (x :: xs).countP (fun b => decide (atol < |b|))
          = xs.countP (fun b => decide (atol < |b|)) + 1 := by
        rw [List.countP_cons]
        simp [hax]
      rw [hcnt, List.take_succ_cons, List.takeWhile_cons]
      have hih := ih hxs (fun b hb => hnn b (List.mem_cons_of_mem _ hb))
      simp only [hax, decide_eq_true_eq, if_pos]
      exact congrArg (x :: ·) hih
    · have hall : (x :: xs).countP (fun b => decide (atol < |b|)) = 0 := by
        rw [List.countP_eq_zero]
        intro b hb
        rcases List.mem_cons.mp hb with rfl | hb
        · simpa using hax
        · have hb0 : 0 ≤ b := hnn b (List.mem_cons_of_mem _ hb)
          have hbx : b ≤ x := hx b hb
          have habs : |b| ≤ |x| := by
            rw [abs_of_nonneg hb0, abs_of_nonneg (hb0.trans hbx)]
            exact hbx
          simp only [decide_eq_true_eq]
          intro hcon
          exact hax (lt_of_lt_of_le hcon habs)
      rw [hall, List.take_zero, List.takeWhile_cons]
      simp [hax]

theorem sum_take_mono {l : List ℚ} (hnn : ∀ x ∈ l, 0 ≤ x) {i j : ℕ} (hij : i ≤ j) :
    (l.take i).sum ≤ (l.take j).sum := by
  have h1 : l.take j = (l.take j).take i ++ (l.take j).drop i :=
    (List.take_append_drop i (l.take j)).symm
  rw [List.take_take, min_eq_left hij] at h1
  have h2 : 0 ≤ ((l.take j).drop i).sum := by
    refine List.sum_nonneg ?_
    intro x hx
    exact hnn x (List.mem_of_mem_take (List.mem_of_mem_drop hx))
  calc (l.take i).sum ≤ (l.take i).sum + ((l.take j).drop i).sum := le_add_of_nonneg_right h2
    _ = (l.take j).sum := by
        conv_rhs => rw [h1]
        rw [List.sum_append]

theorem sum_take_lt {l : List ℚ} (hpos : ∀ x ∈ l, 0 < x) {j : ℕ} (hj : j < l.length) :
    (l.take j).sum < l.sum := by
  have hd : l.drop j ≠ [] := by
    intro h
    have := List.drop_eq_nil_iff.mp h
    omega
  have hdp : 0 < (l.drop j).sum :=
    List.sum_pos _ (fun x hx => hpos x (List.mem_of_mem_drop hx)) hd
  calc (l.take j).sum < (l.take j).sum + (l.drop j).sum := lt_add_of_pos_right _ hdp
    _ = l.sum := by rw [← List.sum_append, List.take_append_drop]

theorem countP_range_lt (m : ℕ) :
    ∀ n : ℕ, (List.range n).countP (fun j => decide (j < m)) = min m n := by
  intro n
  induction n with
  | zero => simp
  | succ n ih =>
    rw [List.range_succ, List.countP_append, ih]
    by_cases h : n < m
    · simp [h]; omega
    · simp [h]; omega

/-! ## Claim theorems -/

/-- C1: on a fit model, `transform(data, penalty)` centers the data by the
stored training means when `center` is set (else uses raw values), computes
`W̃ = data_centered[hk_genes] · Vtᵀ`, solves the ridge system
`J = (W̃ᵀW̃ + penalty·I)⁻¹`, `coefficients = J · W̃ᵀ · data_centered` over
the full gene set, and returns `data − W̃ · coefficients` — i.e. the code
path equals the spec formula. -/
theorem RUVMat.transform_matches_spec {m n c K : ℕ} (center : Bool) (means : Fin n → ℚ)
    (hkIdx : Fin c → Fin n) (Vt : Matrix (Fin K) (Fin c) ℚ)
    (invO : Matrix (Fin K) (Fin K) ℚ → Matrix (Fin K) (Fin K) ℚ)
    (data : Matrix (Fin m) (Fin n) ℚ) (penalty : ℚ) :
    RUVMat.transform center means hkIdx Vt invO data penalty
      = RUVMat.transformSpec center means hkIdx Vt invO data penalty := by
  simp only [RUVMat.transform, RUVMat.transformSpec, RUVMat.delta, Matrix.mul_assoc]
  rw [add_comm (penalty • (1 : Matrix (Fin K) (Fin K) ℚ))]

/-- C7 (amended): construction always yields the Unfit state (all five
fitted fields `none`) with the chosen `center` flag, regardless of the
other constructor arguments; *when the SVD call inside `fit` returns*,
`fit` installs all five fitted fields, keeping `center` and replacing any
prior fit, and the all-or-none invariant holds; but when the SVD call
raises, `fit` propagates the exception after having already overwritten
`means` and `hk_genes` and without touching `U`, `L`, `Vt` — so the
install is not atomic and (on a fresh model) a partially-fit state is
observable. -/
theorem ruv_lifecycle :
    (∀ (c : Bool) (hk : Option (List String)) (me : Option (String → ℚ))
        (U : Option MatQ) (L : Option (List ℚ)) (Vt : Option MatQ),
      RemoveUnwantedVariation.init c hk me U L Vt
          = { center := c, hk_genes := none, means := none, U := none, L := none, Vt := none }
        ∧ (RemoveUnwantedVariation.init c hk me U L Vt).allOrNone)
    ∧ (∀ (svdO : MatQ → Except String (MatQ × List ℚ × MatQ))
        (model : RemoveUnwantedVariation) (data : PFrame) (hkg : List String)
        (vc : ℚ) (nc : Option ℕ) (svdResult : MatQ × List ℚ × MatQ),
      svdO (fitHousekeeping model.center data hkg) = Except.ok svdResult →
        (RemoveUnwantedVariation.fit svdO model data hkg vc nc).1 = Except.ok Unit.unit
        ∧ ((RemoveUnwantedVariation.fit svdO model data hkg vc nc).2.hk_genes.isSome = true
          ∧ (RemoveUnwantedVariation.fit svdO model data hkg vc nc).2.means.isSome = true
          ∧ (RemoveUnwantedVariation.fit svdO model data hkg vc nc).2.U.isSome = true
          ∧ (RemoveUnwantedVariation.fit svdO model data hkg vc nc).2.L.isSome = true
          ∧ (RemoveUnwantedVariation.fit svdO model data hkg vc nc).2.Vt.isSome = true)
        ∧ (RemoveUnwantedVariation.fit svdO model data hkg vc nc).2.center = model.center
        ∧ (RemoveUnwantedVariation.fit svdO model data hkg vc nc).2.allOrNone)
    ∧ (∀ (svdO : MatQ → Except String (MatQ × List ℚ × MatQ))
        (model : RemoveUnwantedVariation) (data : PFrame) (hkg : List String)
        (vc : ℚ) (nc : Option ℕ) (e : String),
      svdO (fitHousekeeping model.center data hkg) = Except.error e →
        RemoveUnwantedVariation.fit svdO model data hkg vc nc
          = (Except.error e,
            { model with hk_genes := some (fitHkGenes data hkg),
                         means := some (fitMeans data) })) := by
  refine ⟨?_, ?_, ?_⟩
  · intro c hk me U L Vt
    exact ⟨rfl, Or.inl ⟨rfl, rfl, rfl, rfl, rfl⟩⟩
  · intro svdO model data hkg vc nc svdResult h
    refine ⟨?_, ⟨?_, ?_, ?_, ?_, ?_⟩, ?_, Or.inr ⟨?_, ?_, ?_, ?_, ?_⟩⟩ <;>
      simp [RemoveUnwantedVariation.fit, h]
  · intro svdO model data hkg vc nc e h
    simp only [RemoveUnwantedVariation.fit, h]

/-- C7 counterexample: on a freshly constructed model, a `fit` whose SVD
call raises (`numpy.linalg.LinAlgError`, here the oracle returning the
error) leaves `means` and `hk_genes` assigned while `U`, `L`, `Vt` are
still `None`: an observable partially-fit state, violating the claimed
atomic install and all-or-none invariant. -/
theorem ruv_fit_not_atomic_counterexample :
    (RemoveUnwantedVariation.fit (fun _ => Except.error "SVD did not converge")
        (RemoveUnwantedVariation.init true none none none none none)
        ⟨[], []⟩ [] (9/10) none).1 = Except.error "SVD did not converge"
    ∧ ((RemoveUnwantedVariation.fit (fun _ => Except.error "SVD did not converge")
        (RemoveUnwantedVariation.init true none none none none none)
        ⟨[], []⟩ [] (9/10) none).2.hk_genes.isSome = true
      ∧ (RemoveUnwantedVariation.fit (fun _ => Except.error "SVD did not converge")
        (RemoveUnwantedVariation.init true none none none none none)
        ⟨[], []⟩ [] (9/10) none).2.means.isSome = true
      ∧ (RemoveUnwantedVariation.fit (fun _ => Except.error "SVD did not converge")
        (RemoveUnwantedVariation.init true none none none none none)
        ⟨[], []⟩ [] (9/10) none).2.U = none
      ∧ (RemoveUnwantedVariation.fit (fun _ => Except.error "SVD did not converge")
        (RemoveUnwantedVariation.init true none none none none none)
        ⟨[], []⟩ [] (9/10) none).2.L = none
      ∧ (RemoveUnwantedVariation.fit (fun _ => Except.error "SVD did not converge")
        (RemoveUnwantedVariation.init true none none none none none)
        ⟨[], []⟩ [] (9/10) none).2.Vt = none)
    ∧ ¬ (RemoveUnwantedVariation.fit (fun _ => Except.error "SVD did not converge")
        (RemoveUnwantedVariation.init true none none none none none)
        ⟨[], []⟩ [] (9/10) none).2.allOrNone := by
  refine ⟨rfl, ⟨rfl, rfl, rfl, rfl, rfl⟩, ?_⟩
  intro h
  rcases h with ⟨h1, _⟩ | ⟨_, _, h3, _⟩
  · exact Option.noConfusion h1
  · exact Bool.noConfusion h3

/-- C7 witness: with an SVD oracle that returns a concrete triple, the
success branch of the lifecycle theorem applies and the fitted model
satisfies the all-or-none invariant. -/
theorem ruv_lifecycle_witness :
    ((fun _ : MatQ => (Except.ok ([[1]], [1], [[1]]) : Except String (MatQ × List ℚ × MatQ)))
        (fitHousekeeping false ⟨[], []⟩ [])
      = (Except.ok ([[1]], [1], [[1]]) : Except String (MatQ × List ℚ × MatQ)))
    ∧ (RemoveUnwantedVariation.fit
        (fun _ => (Except.ok ([[1]], [1], [[1]]) : Except String (MatQ × List ℚ × MatQ)))
        (RemoveUnwantedVariation.init false none none none none none)
        ⟨[], []⟩ [] (9/10) none).2.allOrNone := by
  refine ⟨rfl, ?_⟩
  exact (ruv_lifecycle.2.1
    (fun _ => (Except.ok ([[1]], [1], [[1]]) : Except String (MatQ × List ℚ × MatQ)))
    (RemoveUnwantedVariation.init false none none none none none)
    ⟨[], []⟩ [] (9/10) none ([[1]], [1], [[1]]) rfl).2.2.2

/-- C8: `transform` on a freshly constructed model (on which `fit` has
never been called) fails with the "model not fit" condition instead of
returning a result, for every input and penalty. -/
theorem transform_unfit_errors (invO : MatQ → MatQ) (c : Bool)
    (hk : Option (List String)) (me : Option (String → ℚ)) (U : Option MatQ)
    (L : Option (List ℚ)) (Vt : Option MatQ) (data : PFrame) (penalty : ℚ) :
    RemoveUnwantedVariation.transform invO (RemoveUnwantedVariation.init c hk me U L Vt)
        data penalty
      = Except.error "RUV has not been fit!" := rfl

/-- C9: `save` to an existing destination without overwrite permission
raises the overwrite-refusal condition and returns the filesystem
untouched; with permission, or when the destination does not exist, it
succeeds and stores the complete model object at the destination. -/
theorem save_overwrite_protection (fs : String → Option RemoveUnwantedVariation)
    (model : RemoveUnwantedVariation) (filename : String) (ow : Bool) :
    ((fs filename).isSome = true → ow = false →
      RemoveUnwantedVariation.save fs model filename ow
        = (Except.error "Must allow overwriting existing files", fs))
    ∧ ((ow = true ∨ (fs filename).isNone = true) →
      (RemoveUnwantedVariation.save fs model filename ow).1 = Except.ok Unit.unit
        ∧ (RemoveUnwantedVariation.save fs model filename ow).2 filename = some model) := by
  constructor
  · intro hex how
    subst how
    rcases Option.isSome_iff_exists.mp hex with ⟨v, hv⟩
    simp [RemoveUnwantedVariation.save, hv]
  · intro h
    rcases h with h | h
    · subst h
      simp [RemoveUnwantedVariation.save]
    · simp [RemoveUnwantedVariation.save, h]

/-- C9 witness: a filesystem already holding "model.pkl"; saving there
without permission errors and leaves the filesystem unchanged. -/
theorem save_overwrite_protection_witness :
    (((fun f => if f = "model.pkl"
          then some (RemoveUnwantedVariation.init true none none none none none)
          else none) "model.pkl").isSome = true ∧ (false : Bool) = false)
    ∧ RemoveUnwantedVariation.save
        (fun f => if f = "model.pkl"
          then some (RemoveUnwantedVariation.init true none none none none none)
          else none)
        (RemoveUnwantedVariation.init false none none none none none) "model.pkl" false
      = (Except.error "Must allow overwriting existing files",
        fun f => if f = "model.pkl"
          then some (RemoveUnwantedVariation.init true none none none none none)
          else none) := by
  refine ⟨⟨by simp, rfl⟩, ?_⟩
  exact (save_overwrite_protection _ _ _ _).1 (by simp) rfl

/-- C10: `deduplicate` returns the distinct input column identifiers in
sorted order (sorted even when nothing is duplicated, as the concrete
nodup instance shows), and each output column is the elementwise sum of
every input column bearing that identifier. -/
theorem deduplicate_spec (data : LFrame) :
    (deduplicate data).cols.Pairwise (· ≤ ·)
    ∧ (deduplicate data).cols.Nodup
    ∧ (∀ s : String, s ∈ (deduplicate data).cols ↔ s ∈ data.cols)
    ∧ (deduplicate data).rows
        = data.rows.map (fun r => (deduplicate data).cols.map (fun k => sumMatching k data.cols r))
    ∧ deduplicate ⟨["b", "a"], [[1, 2]]⟩ = ⟨["a", "b"], [[2, 1]]⟩ := by
  refine ⟨?_, ?_, ?_, ?_, ?_⟩
  · exact ((List.sorted_insertionSort (· ≤ ·) data.cols).sublist
      (List.dedup_sublist _)).imp (fun h => h)
  · exact List.nodup_dedup _
  · intro s
    rw [show (deduplicate data).cols = (List.insertionSort (· ≤ ·) data.cols).dedup from rfl]
    rw [List.mem_dedup]
    exact (List.perm_insertionSort (· ≤ ·) data.cols).mem_iff
  · simp only [deduplicate]
    refine List.map_congr_left ?_
    intro r _
    refine List.map_congr_left ?_
    intro k _
    exact sumMatching_eq k data.cols r
  · have hba : ¬ (("b" : String) ≤ "a") := by
      rw [String.le_iff_toList_le]
      decide
    simp [deduplicate, List.insertionSort, List.orderedInsert, hba, List.filter, List.dedup]

/-- C5 (amended): `impute` raises no error and works row by row; in a row
with at least one positive value (and no NaN input) every zero becomes
`scale` times the row's minimum positive value and every other entry is
unchanged; but in a row with no positive value the pandas NaN fill value
propagates and every entry of that row becomes NaN (the zeros do not
remain zero). -/
theorem impute_spec (scale : ℚ) (data : List (List FVal)) :
    impute data scale = data.map (imputeRow scale)
    ∧ (∀ row : List FVal, FVal.nan ∉ row → ∀ q0 : ℚ, minPos row = some q0 →
        imputeRow scale row
          = row.map (fun x => if x = FVal.val 0 then FVal.val (scale * q0) else x))
    ∧ (∀ row : List FVal, minPos row = none → ∀ y ∈ imputeRow scale row, y = FVal.nan)
    ∧ (∀ row : List FVal, (minPos row = none ↔ ∀ q : ℚ, FVal.val q ∈ row → ¬ 0 < q)) := by
  refine ⟨rfl, ?_, ?_, fun row => minPos_eq_none_iff row⟩
  · intro row hnan q0 hq0
    simp only [imputeRow, hq0]
    have hfill : row.map (fun x => match x with | FVal.nan => FVal.val 0 | y => y) = row := by
      conv_rhs => rw [← List.map_id row]
      apply List.map_congr_left
      intro a ha
      cases a with
      | nan => exact absurd ha hnan
      | val q => rfl
    rw [hfill]
    apply List.map_congr_left
    intro x hx
    by_cases hx0 : x = FVal.val 0
    · subst hx0
      simp [FVal.add, FVal.mul]
    · cases x with
      | nan => exact absurd hx hnan
      | val q =>
        simp [hx0, FVal.add, FVal.mul]
  · intro row hmin y hy
    simp only [imputeRow, hmin] at hy
    rcases List.mem_map.mp hy with ⟨x, _, rfl⟩
    rw [FVal.mul_nan, FVal.add_nan]

/-- C5 counterexample: the single-sample row `[0.0]` has no positive
value; the claim says its zero remains zero, but `impute` turns the whole
row into NaN (pandas' all-NaN minimum propagated through the mask
multiply). -/
theorem impute_counterexample :
    impute [[FVal.val 0]] (1/2) = [[FVal.nan]]
    ∧ impute [[FVal.val 0]] (1/2) ≠ [[FVal.val 0]]
    ∧ minPos [FVal.val 0] = none := by
  refine ⟨rfl, ?_, rfl⟩
  decide

/-- C5 witness: on the row `[0, 2]` (a positive value exists, no NaN) the
zero is replaced by `scale * 2` and the positive entry is untouched. -/
theorem impute_spec_witness :
    (FVal.nan ∉ [FVal.val 0, FVal.val 2] ∧ minPos [FVal.val 0, FVal.val 2] = some 2)
    ∧ imputeRow (1/2) [FVal.val 0, FVal.val 2]
        = [FVal.val 0, FVal.val 2].map
            (fun x => if x = FVal.val 0 then FVal.val (1/2 * 2) else x) := by
  refine ⟨⟨?_, ?_⟩, ?_⟩
  · decide
  · rfl
  · exact (impute_spec (1/2) []).2.1 [FVal.val 0, FVal.val 2] (by decide) 2 rfl

/-- C6 (amended): `ordinalize` keeps the input dtype, maps each value `v`
to (number of cutoffs strictly below `v`) plus `min_value` — for sorted
cutoffs this is the bin with left-exclusive / right-inclusive boundaries
`cutoffs[i-1] < v ≤ cutoffs[i]` (not right-exclusive) — and reproduces
the documented example rows. -/
theorem ordinalize_spec (data : QFrame) (cutoffs : List ℚ) (mv : ℚ)
    (hsort : cutoffs.Pairwise (· ≤ ·)) :
    (ordinalize data cutoffs mv).dtype = data.dtype
    ∧ (ordinalize data cutoffs mv).vals = data.vals.map (fun row => row.map (fun v =>
        (cutoffs.countP (fun c => decide (c < v)) : ℚ) + mv))
    ∧ (∀ v : ℚ,
        (∀ x ∈ cutoffs.take (cutoffs.countP (fun c => decide (c < v))), x < v)
        ∧ (∀ x ∈ cutoffs.drop (cutoffs.countP (fun c => decide (c < v))), v ≤ x))
    ∧ ordinalize ⟨"float64", [[-3.2, 1.4, -0.7], [2.5, -0.8, 6.1], [-1.9, -4.5, 3.7]]⟩
          [-2, 2] (-1)
        = ⟨"float64", [[-1, 0, 0], [1, 0, 1], [0, -1, 1]]⟩ := by
  refine ⟨rfl, rfl, fun v => countP_bracket v cutoffs hsort, ?_⟩
  simp only [ordinalize]
  norm_num [List.countP_cons, List.countP_nil]

/-- C6 counterexample: at a value equal to a cutoff (`v = 2` with cutoffs
`[-2, 2]`, `min_value = -1`) the code (left searchsorted) yields bin 1,
i.e. output `0`, while the claimed right-exclusive bracket
`cutoffs[i-1] ≤ v < cutoffs[i]` would put `v` in bin 2, i.e. output `1`. -/
theorem ordinalize_counterexample :
    (ordinalize ⟨"float64", [[2]]⟩ [-2, 2] (-1)).vals = [[0]]
    ∧ (ordinalizeRightExclusive ⟨"float64", [[2]]⟩ [-2, 2] (-1)).vals = [[1]] := by
  constructor <;>
    norm_num [ordinalize, ordinalizeRightExclusive, List.countP_cons, List.countP_nil]

/-- C6 witness: the sorted cutoffs `[-2, 2]` satisfy the theorem's
hypothesis, and the theorem applies to a concrete frame. -/
theorem ordinalize_spec_witness :
    List.Pairwise (· ≤ ·) [(-2:ℚ), 2]
    ∧ (ordinalize ⟨"float64", [[2.5]]⟩ [(-2:ℚ), 2] (-1)).dtype = "float64" := by
  have hs : List.Pairwise (· ≤ ·) [(-2:ℚ), 2] := by
    norm_num [List.pairwise_cons]
  exact ⟨hs, (ordinalize_spec ⟨"float64", [[2.5]]⟩ [(-2:ℚ), 2] (-1) hs).1⟩

/-- C4 (amended): whenever every (imputed, reindexed) row has a nonzero
sum — and, for the counts conversion, a nonzero sum after dividing by the
gene lengths — every row of `tpm_from_rpkm` and of `tpm_from_counts` sums
to exactly 1,000,000.  Rows with zero sum instead hit a 0/0 (NaN in the
float code) and do not satisfy this. -/
theorem tpm_row_sums {m n : ℕ} (data : Matrix (Fin m) (Fin n) ℚ)
    (gene_lengths : Fin n → ℚ)
    (imputer : Matrix (Fin m) (Fin n) ℚ → Matrix (Fin m) (Fin n) ℚ)
    (h1 : ∀ i, (∑ k, imputer data i k) ≠ 0)
    (h2 : ∀ i, (∑ k, imputer data i k / gene_lengths k) ≠ 0) :
    (∀ i, ∑ j, NormQ.tpm_from_rpkm data imputer i j = 10 ^ 6)
    ∧ (∀ i, ∑ j, NormQ.tpm_from_counts data gene_lengths imputer i j = 10 ^ 6) := by
  constructor
  · intro i
    simp only [NormQ.tpm_from_rpkm, Matrix.of_apply]
    rw [← Finset.sum_div, ← Finset.mul_sum, mul_div_assoc, div_self (h1 i), mul_one]
  · intro i
    simp only [NormQ.tpm_from_counts, Matrix.of_apply]
    rw [← Finset.sum_div, ← Finset.mul_sum, mul_div_assoc, div_self (h2 i), mul_one]

/-- C4 counterexample: with the all-zero one-sample input (reachable e.g.
when reindexing drops every measured gene) the row sum of the result is 0
(NaN in the float code), not 1,000,000, so the claim fails without the
nonzero-row-sum hypothesis. -/
theorem tpm_row_sum_counterexample :
    (∑ j, NormQ.tpm_from_rpkm (0 : Matrix (Fin 1) (Fin 1) ℚ) id 0 j) ≠ 10 ^ 6 := by
  simp [NormQ.tpm_from_rpkm]
  norm_num

/-- C4 witness: a 1×1 matrix with entry 2 has nonzero row sums (also after
dividing by gene length 1), and the theorem yields the 1,000,000 row sum. -/
theorem tpm_row_sums_witness :
    ((∀ i : Fin 1, (∑ k : Fin 1, id ((Matrix.of fun _ _ => (2 : ℚ)) : Matrix (Fin 1) (Fin 1) ℚ) i k) ≠ 0)
      ∧ (∀ i : Fin 1, (∑ k : Fin 1, id ((Matrix.of fun _ _ => (2 : ℚ)) : Matrix (Fin 1) (Fin 1) ℚ) i k / (fun _ => (1:ℚ)) k) ≠ 0))
    ∧ (∀ i : Fin 1, ∑ j : Fin 1,
        NormQ.tpm_from_rpkm ((Matrix.of fun _ _ => (2 : ℚ)) : Matrix (Fin 1) (Fin 1) ℚ) id i j = 10 ^ 6) := by
  have h1 : ∀ i : Fin 1, (∑ k : Fin 1, id ((Matrix.of fun _ _ => (2 : ℚ)) : Matrix (Fin 1) (Fin 1) ℚ) i k) ≠ 0 := by
    intro i
    simp
  have h2 : ∀ i : Fin 1, (∑ k : Fin 1, id ((Matrix.of fun _ _ => (2 : ℚ)) : Matrix (Fin 1) (Fin 1) ℚ) i k / (fun _ => (1:ℚ)) k) ≠ 0 := by
    intro i
    simp
  exact ⟨⟨h1, h2⟩,
    (tpm_row_sums ((Matrix.of fun _ _ => (2 : ℚ)) : Matrix (Fin 1) (Fin 1) ℚ) (fun _ => 1) id h1 h2).1⟩

/-- C3: for a matrix in valid TPM form (positive entries, each row summing
to 1,000,000), `tpm_from_clr ∘ clr_from_tpm` over the same gene set
returns the matrix exactly (hence within any floating tolerance). -/
theorem clr_tpm_round_trip {m n : ℕ} (X : Matrix (Fin m) (Fin n) ℝ)
    (hpos : ∀ i j, 0 < X i j) (hsum : ∀ i, ∑ j, X i j = 10 ^ 6) :
    NormR.tpm_from_clr (NormR.clr_from_tpm X do_nothing) = X := by
  have hX : NormR.tpm_from_rpkm X do_nothing = X := by
    ext i j
    simp only [NormR.tpm_from_rpkm, do_nothing, Matrix.of_apply]
    rw [hsum i, mul_comm, mul_div_assoc, div_self (by norm_num : (10:ℝ)^6 ≠ 0), mul_one]
  have hclr : NormR.clr_from_tpm X do_nothing
      = Matrix.of (fun i j => Real.log (X i j) - (∑ k, Real.log (X i k)) / (n : ℝ)) := by
    ext i j
    simp only [NormR.clr_from_tpm, NormR.tpm_from_subset, hX, Matrix.of_apply]
  rw [hclr]
  ext i j
  simp only [NormR.tpm_from_clr, NormR.tpm_from_rpkm, do_nothing, Matrix.of_apply]
  have he : ∀ j' : Fin n,
      Real.exp (Real.log (X i j') - (∑ k, Real.log (X i k)) / (n : ℝ))
        = X i j' * Real.exp (-((∑ k, Real.log (X i k)) / (n : ℝ))) := by
    intro j'
    rw [Real.exp_sub, Real.exp_log (hpos i j'), Real.exp_neg, div_eq_mul_inv]
  simp only [he]
  rw [← Finset.sum_mul, hsum i]
  rw [show (10:ℝ)^6 * (X i j * Real.exp (-((∑ k, Real.log (X i k)) / (n : ℝ))))
      = X i j * ((10:ℝ)^6 * Real.exp (-((∑ k, Real.log (X i k)) / (n : ℝ)))) by ring]
  rw [mul_div_assoc, div_self (by positivity), mul_one]

/-- C3 witness: the 1×2 matrix with both entries 500,000 is TPM-valid and
round-trips exactly. -/
theorem clr_tpm_round_trip_witness :
    ((∀ (i : Fin 1) (j : Fin 2),
        (0:ℝ) < ((Matrix.of fun _ _ => (500000 : ℝ)) : Matrix (Fin 1) (Fin 2) ℝ) i j)
      ∧ (∀ i : Fin 1,
        ∑ j : Fin 2, ((Matrix.of fun _ _ => (500000 : ℝ)) : Matrix (Fin 1) (Fin 2) ℝ) i j = 10 ^ 6))
    ∧ NormR.tpm_from_clr (NormR.clr_from_tpm
          ((Matrix.of fun _ _ => (500000 : ℝ)) : Matrix (Fin 1) (Fin 2) ℝ) do_nothing)
        = ((Matrix.of fun _ _ => (500000 : ℝ)) : Matrix (Fin 1) (Fin 2) ℝ) := by
  have hpos : ∀ (i : Fin 1) (j : Fin 2),
      (0:ℝ) < ((Matrix.of fun _ _ => (500000 : ℝ)) : Matrix (Fin 1) (Fin 2) ℝ) i j := by
    intro i j
    norm_num
  have hsum : ∀ i : Fin 1,
      ∑ j : Fin 2, ((Matrix.of fun _ _ => (500000 : ℝ)) : Matrix (Fin 1) (Fin 2) ℝ) i j = 10 ^ 6 := by
    intro i
    rw [Fin.sum_univ_two]
    norm_num
  exact ⟨⟨hpos, hsum⟩, clr_tpm_round_trip _ hpos hsum⟩

/-- C2 (amended): given the SVD output with `L` sorted descending and
nonnegative, a `variance_cutoff ≤ 1`, a `num_components` that is at least
1 when given, and at least one singular value not numerically close to
zero, `_cutoff_svd` returns `U` restricted to its first `K` columns, the
first `K` (non-near-zero) singular values and the first `K` rows of `Vt`,
where `K` is one plus the first index at which the cumulative fractional
variance reaches the cutoff, capped by `num_components` and by the count
of non-near-zero singular values; `K ≥ 1`; and `variance_cutoff = 1` with
`num_components = None` selects the full non-degenerate rank. -/
theorem cutoff_svd_rank_selection (U : MatQ) (L : List ℚ) (Vt : MatQ) (cutoff : ℚ)
    (nc : Option ℕ) (hsort : L.Pairwise (· ≥ ·)) (hnn : ∀ x ∈ L, 0 ≤ x)
    (hcut : cutoff ≤ 1) (hnc : ∀ k, nc = some k → 1 ≤ k)
    (hex : ∃ x ∈ L, atol < |x|) :
    cutoff_svd (U, L, Vt) cutoff nc
      = (U.map (List.take (specRank L cutoff nc)),
         (trimmedL L).take (specRank L cutoff nc),
         Vt.take (specRank L cutoff nc))
    ∧ 1 ≤ specRank L cutoff nc
    ∧ (cutoff = 1 → nc = none → (cutoff_svd (U, L, Vt) cutoff nc).2.1 = trimmedL L) := by
  have hcnt_le : numNonzero L ≤ L.length := List.countP_le_length _
  have htrim_len : (trimmedL L).length = numNonzero L := by
    rw [trimmedL, List.length_take]
    exact min_eq_left hcnt_le
  have htw : trimmedL L = L.takeWhile (fun x => decide (atol < |x|)) := by
    rw [trimmedL, numNonzero]
    exact trimmed_eq_takeWhile L hsort hnn
  have hmem : ∀ x ∈ trimmedL L, atol < |x| := by
    intro x hx
    rw [htw] at hx
    simpa using List.mem_takeWhile_imp hx
  have hpos : ∀ x ∈ trimmedL L, 0 < x := by
    intro x hx
    have h0 : 0 ≤ x := hnn x (List.mem_of_mem_take (by rw [trimmedL] at hx; exact hx))
    have hax := hmem x hx
    rw [abs_of_nonneg h0] at hax
    calc (0:ℚ) < atol := by norm_num [atol]
      _ < x := hax
  have hsq_len : ((trimmedL L).map (fun x => x ^ 2)).length = numNonzero L := by
    rw [List.length_map, htrim_len]
  have hsq_pos : ∀ y ∈ (trimmedL L).map (fun x => x ^ 2), 0 < y := by
    intro y hy
    rcases List.mem_map.mp hy with ⟨x, hx, rfl⟩
    exact pow_pos (hpos x hx) 2
  have hcnt_pos : 0 < numNonzero L := by
    rcases hex with ⟨x, hxL, hax⟩
    rw [numNonzero]
    exact List.countP_pos_iff.mpr ⟨x, hxL, by simpa using hax⟩
  have hsq_ne : (trimmedL L).map (fun x => x ^ 2) ≠ [] := by
    intro h
    rw [h] at hsq_len
    simp at hsq_len
    omega
  have hT : 0 < ((trimmedL L).map (fun x => x ^ 2)).sum :=
    List.sum_pos _ hsq_pos hsq_ne
  have hcumul : cumulFracs L
      = (List.range (numNonzero L)).map
        (fun j => (((trimmedL L).map (fun x => x ^ 2)).take (j + 1)).sum
          / ((trimmedL L).map (fun x => x ^ 2)).sum) := by
    rw [cumulFracs, hsq_len]
  have hclen : (cumulFracs L).length = numNonzero L := by
    rw [hcumul, List.length_map, List.length_range]
  have hcsort : (cumulFracs L).Pairwise (· ≤ ·) := by
    rw [hcumul]
    rw [List.pairwise_map]
    refine (List.pairwise_lt_range (numNonzero L)).imp ?_
    intro a b hab
    refine (div_le_div_iff_of_pos_right hT).mpr ?_
    exact sum_take_mono (fun x hx => le_of_lt (hsq_pos x hx)) (by omega)
  have hone : (1:ℚ) ∈ cumulFracs L := by
    rw [hcumul]
    refine List.mem_map.mpr ⟨numNonzero L - 1, List.mem_range.mpr (by omega), ?_⟩
    rw [show numNonzero L - 1 + 1 = numNonzero L from by omega, ← hsq_len,
      List.take_length]
    exact div_self (ne_of_gt hT)
  have hbridge : (cumulFracs L).countP (fun c => decide (c < cutoff))
      = firstCross L cutoff := by
    rw [firstCross]
    exact countP_lt_eq_findIdx_le cutoff (cumulFracs L) hcsort
  have hfc_lt : firstCross L cutoff < numNonzero L := by
    have h1 : firstCross L cutoff < (cumulFracs L).length := by
      rw [firstCross]
      exact List.findIdx_lt_length_of_exists ⟨1, hone, by simpa using hcut⟩
    omega
  have hmaxc : 1 ≤ nc.getD (numNonzero L) := by
    cases nc with
    | none => simpa using hcnt_pos
    | some k => simpa using hnc k rfl
  have hKey : min (nc.getD (trimmedL L).length)
        (1 + (cumulFracs L).countP (fun c => decide (c < cutoff)))
      = specRank L cutoff nc := by
    rw [hbridge, htrim_len, specRank]
    rw [min_eq_right (by omega : 1 + firstCross L cutoff ≤ numNonzero L)]
  refine ⟨?_, ?_, ?_⟩
  · simp only [cutoff_svd]
    rw [hKey]
  · rw [specRank]
    exact le_min hmaxc (le_min hcnt_pos (Nat.le_add_right 1 _))
  · intro hc1 hncn
    subst hc1
    subst hncn
    simp only [cutoff_svd, Option.getD_none]
    have hcount1 : (cumulFracs L).countP (fun c => decide (c < 1))
        = numNonzero L - 1 := by
      rw [hcumul, List.countP_map]
      have hpt : ∀ j ∈ List.range (numNonzero L),
          ((fun c => decide (c < 1))
              ∘ (fun j => (((trimmedL L).map (fun x => x ^ 2)).take (j + 1)).sum
                / ((trimmedL L).map (fun x => x ^ 2)).sum)) j = true
            ↔ (fun j => decide (j < numNonzero L - 1)) j = true := by
        intro j hj
        have hjlt : j < numNonzero L := List.mem_range.mp hj
        by_cases hjc : j + 1 < numNonzero L
        · have hlt : (((trimmedL L).map (fun x => x ^ 2)).take (j + 1)).sum
              < ((trimmedL L).map (fun x => x ^ 2)).sum := by
            refine sum_take_lt hsq_pos ?_
            omega
          simp only [Function.comp_apply, decide_eq_true_eq]
          rw [div_lt_one hT]
          constructor
          · intro _; omega
          · intro _; exact hlt
        · have hj1 : j + 1 = numNonzero L := by omega
          have htake : ((trimmedL L).map (fun x => x ^ 2)).take (j + 1)
              = (trimmedL L).map (fun x => x ^ 2) := by
            rw [hj1, ← hsq_len, List.take_length]
          simp only [Function.comp_apply, htake, div_self (ne_of_gt hT),
            decide_eq_true_eq]
          constructor
          · intro h; exact absurd h (lt_irrefl 1)
          · intro h; omega
      rw [List.countP_congr hpt, countP_range_lt]
      omega
    rw [hcount1, htrim_len,
      show min (numNonzero L) (1 + (numNonzero L - 1)) = numNonzero L from by omega,
      ← htrim_len, List.take_length]

/-- C2 counterexample: `L = [1]` has a singular value not close to zero,
yet with `num_components = 0` the code returns an empty singular-value
list (rank 0), contradicting the claim's "K ≥ 1 whenever at least one
non-zero singular value exists" for arbitrary `num_components`. -/
theorem cutoff_svd_counterexample :
    (cutoff_svd ([[1]], [1], [[1]]) (1/2) (some 0)).2.1 = []
    ∧ atol < |(1:ℚ)| := by
  constructor
  · simp [cutoff_svd]
  · norm_num [atol]

/-- C2 witness: for the SVD triple `([[1]], [1], [[1]])` with cutoff 1 and
no component cap, the hypotheses hold and the selected rank is at least 1. -/
theorem cutoff_svd_rank_selection_witness :
    (List.Pairwise (· ≥ ·) [(1:ℚ)] ∧ (∀ x ∈ [(1:ℚ)], 0 ≤ x) ∧ (1:ℚ) ≤ 1
      ∧ (∃ x ∈ [(1:ℚ)], atol < |x|))
    ∧ 1 ≤ specRank [(1:ℚ)] 1 none := by
  have h1 : List.Pairwise (· ≥ ·) [(1:ℚ)] := List.pairwise_singleton _ _
  have h2 : ∀ x ∈ [(1:ℚ)], 0 ≤ x := by
    intro x hx
    rw [List.mem_singleton] at hx
    rw [hx]
    norm_num
  have h4 : ∃ x ∈ [(1:ℚ)], atol < |x| := ⟨1, List.mem_singleton_self 1, by norm_num [atol]⟩
  exact ⟨⟨h1, h2, le_refl 1, h4⟩,
    (cutoff_svd_rank_selection [[1]] [1] [[1]] 1 none h1 h2 (le_refl 1)
      (fun k h => by cases h) h4).2.1⟩
